import Mathlib

/-!
Verification development for the MAGMA DSL source-to-source translator
`backends/magma/gccm.py`.  The Python program is shallowly embedded over
`List Char` buffers: Python strings become `List Char`, `str.find` becomes
`str_find` (returning `-1 : Int` when absent), `str.index` becomes
`str_index` (returning `Option Nat`, `none` modelling the uncaught
`ValueError`), Python slices become `pySlice`/`pySliceEnd` with Python's
negative-index and clamping semantics, and the fixed-trip-count `for` loops
become fuel-indexed recursions whose fuel is the up-front count, exactly as
the source computes it.
-/

/-- Convert a string literal to the `List Char` buffer representation used
throughout this development. -/
def cs (x : String) : List Char := x.data

/-- Model of Python `s.index(pat)` / the search underlying `s.find(pat)`:
index of the first occurrence of `pat` in `s`, `none` if absent. -/
def str_index : List Char → List Char → Option Nat
  | [], pat => if pat.isPrefixOf ([] : List Char) then some 0 else none
  | c :: rest, pat =>
    if pat.isPrefixOf (c :: rest) then some 0
    else (str_index rest pat).map (· + 1)

/-- Model of Python `s.find(pat)`: first index, or `-1` when absent. -/
def str_find (s pat : List Char) : Int :=
  match str_index s pat with
  | some i => (i : Int)
  | none => -1

/-- Fuel-indexed worker for `str_count` (Python's non-overlapping
`s.count(pat)`); the fuel bounds the scan position. -/
def str_count_go : Nat → List Char → List Char → Nat
  | 0, _, _ => 0
  | fuel + 1, s, pat =>
    if pat.isPrefixOf s then
      match s with
      | [] => 1
      | _ :: _ => 1 + str_count_go fuel (s.drop pat.length) pat
    else
      match s with
      | [] => 0
      | _ :: rest => str_count_go fuel rest pat

/-- Model of Python `s.count(pat)`: number of non-overlapping occurrences. -/
def str_count (s pat : List Char) : Nat :=
  str_count_go (s.length + 1) s pat

/-- Python index normalisation for slices: negative indices count from the
end, and the result is clamped to `[0, len]`. -/
def pyIndex (len : Nat) (i : Int) : Nat :=
  let j := if i < 0 then i + len else i
  if j < 0 then 0 else if j > (len : Int) then len else j.toNat

/-- Model of the Python slice `s[a:b]`. -/
def pySlice (s : List Char) (a b : Int) : List Char :=
  let lo := pyIndex s.length a
  let hi := pyIndex s.length b
  (s.drop lo).take (hi - lo)

/-- Model of the Python slice `s[a:]`. -/
def pySliceEnd (s : List Char) (a : Int) : List Char :=
  s.drop (pyIndex s.length a)

/-! ## `find_matching` (gccm.py lines 139-150)

```
def find_matching(line, left, right):
    i3 = line.find(left)
    num= 1
    i4 = len(line)
    for i in range(i3+1,i4):
        if line[i] == right:
            num -= 1
        elif line[i] == left:
            num += 1
        if num == 0:
            return i3, i+1
    return i3, i4
```
-/

/-- One step of the nesting counter of `find_matching`: decrement on the
closing delimiter, increment on the opening one. -/
def delim_step (left right : Char) (num : Int) (c : Char) : Int :=
  if c = right then num - 1 else if c = left then num + 1 else num

/-- The scanning loop of `find_matching`: walks the remaining characters
carrying the absolute index `i` and the nesting counter `num`; returns
`some (i+1)` at the character that brings the counter to zero, `none` if
the buffer ends first. -/
def fm_go (left right : Char) : List Char → Int → Nat → Option Nat
  | [], _, _ => none
  | c :: rest, num, i =>
    let num2 := delim_step left right num c
    if num2 = 0 then some (i + 1) else fm_go left right rest num2 (i + 1)

/-- Model of `find_matching`: the index of the first `left` (Python `find`,
so `-1` when absent) and the exclusive end index of the matched span; when
no close balances, the end index silently falls back to the buffer length. -/
def find_matching (line : List Char) (left right : Char) : Int × Nat :=
  let i3 := str_find line [left]
  match fm_go left right (line.drop (i3 + 1).toNat) 1 (i3 + 1).toNat with
  | some e => (i3, e)
  | none => (i3, line.length)

/-! ## `find_argslist` (gccm.py lines 154-168)

```
def find_argslist( args ):
    args += ")"
    arglist = ""
    numargs = args.count(",")+1
    for i in range(numargs):
        i1 = args.find(",")
        if i1 == -1:
            i1 = args.find(")")
        for j in range(i1):
            if args[i1-j] in {' ', '*', '&'}:
                arglist = arglist + "," + args[i1-j+1:i1]
                args = args[i1+1:]
                break
    return arglist[1:]
```
-/

/-- The separator set `{' ', '*', '&'}` of `find_argslist`. -/
def is_sep (c : Char) : Bool := c = ' ' || c = '*' || c = '&'

/-- The inner backward scan of `find_argslist`: Python's
`for j in range(i1)` probes `args[i1-j]`, i.e. positions `i1, i1-1, …, 1`
(never position 0), and stops at the first separator found.  Returns the
position of that separator, `none` when the range is exhausted. -/
def back_sep (args : List Char) : Nat → Option Nat
  | 0 => none
  | p + 1 =>
    if is_sep (args.getD (p + 1) 'A') then some (p + 1) else back_sep args p

/-- The outer loop of `find_argslist`, with its up-front trip count as
fuel.  When the backward scan fails the buffer and accumulator are left
untouched, exactly as in the source. -/
def find_argslist_go : Nat → List Char → List Char → List Char
  | 0, _, arglist => arglist
  | n + 1, args, arglist =>
    let f := str_find args (cs ",")
    let i1i : Int := if f = -1 then str_find args (cs ")") else f
    let i1 : Nat := i1i.toNat
    match back_sep args i1 with
    | some p =>
      find_argslist_go n (args.drop (i1 + 1))
        (arglist ++ [','] ++ ((args.drop (p + 1)).take (i1 - (p + 1))))
    | none => find_argslist_go n args arglist

/-- Model of `find_argslist`. -/
def find_argslist (args : List Char) : List Char :=
  let args2 := args ++ cs ")"
  (find_argslist_go (str_count args2 (cs ",") + 1) args2 []).drop 1

/-! ## `find_argsbound` (gccm.py lines 173-188)

```
def find_argsbound( bounds ):
    bounds   += ","
    args      = ""
    argsbound = ""
    numargs = bounds.count("=")
    for i in range(numargs):
        if (i != 0 ):
            argsbound += ","
            args      += ","
        i1 = bounds.find("=")
        args = args + bounds[:i1]
        argsbound = argsbound + bounds[i1+1 : bounds.find(":")] + ","
        argsbound = argsbound + bounds[bounds.find(":")+1 : bounds.find(",")]
        bounds = bounds[bounds.find(",")+1:]
    return args, argsbound
```
-/

/-- The loop of `find_argsbound`, with its up-front trip count
(`bounds.count("=")`) as fuel; `first` tracks Python's `i != 0` test. -/
def find_argsbound_go :
    Nat → Bool → List Char → List Char → List Char → List Char × List Char
  | 0, _, _, args, argsbound => (args, argsbound)
  | n + 1, first, bounds, args, argsbound =>
    let argsbound1 := if first then argsbound else argsbound ++ [',']
    let args1 := if first then args else args ++ [',']
    let i1 := str_find bounds (cs "=")
    let args2 := args1 ++ pySlice bounds 0 i1
    let argsbound2 :=
      argsbound1 ++ pySlice bounds (i1 + 1) (str_find bounds (cs ":")) ++ [',']
    let argsbound3 :=
      argsbound2 ++
        pySlice bounds (str_find bounds (cs ":") + 1) (str_find bounds (cs ","))
    let bounds2 := pySliceEnd bounds (str_find bounds (cs ",") + 1)
    find_argsbound_go n false bounds2 args2 argsbound3

/-- Model of `find_argsbound`: returns the pair (dimension-name list,
interleaved begin/end list), both as raw comma-joined text. -/
def find_argsbound (bounds : List Char) : List Char × List Char :=
  let b := bounds ++ cs ","
  find_argsbound_go (str_count b (cs "=")) true b [] []

/-! ## Code emission (gccm.py `main`, lines 39-124)

Only the parts the claims are about are embedded: the per-dimension index
bindings (lines 83-96), the launch geometry (lines 106-115), the generated
name (line 72), and the scanner loop skeleton (lines 39-59) including every
operation that can affect control flow.
-/

/-- The literal list `partsinit = ["blockIdx.x", "blockIdx.y", "threadIdx.x"]`
(line 83) after the two conditional updates of lines 84-85:
`if (numparts == 1): partsinit[0] = partsinit[2]` and
`if (numparts == 2): partsinit[2] = partsinit[2]`. -/
def partsinit (numparts : Nat) : List (List Char) :=
  let p : List (List Char) := [cs "blockIdx.x", cs "blockIdx.y", cs "threadIdx.x"]
  let p := if numparts = 1 then p.set 0 (p.getD 2 []) else p
  if numparts = 2 then p.set 2 (p.getD 2 []) else p

/-- The index-binding lines of the compute kernel (line 96):
`"   int " +parts[i]+ " = " +partsinit[i]+ ";      \n"` for each dimension. -/
def index_bindings (parts : List (List Char)) : List Char :=
  ((List.range parts.length).map fun i =>
    cs "   int " ++ parts.getD i [] ++ cs " = " ++
      (partsinit parts.length).getD i [] ++ cs ";      \n").flatten

/-- The two `dim3` lines of the launch wrapper (lines 106-115), keyed on the
dimension count exactly as the source's `if/elif/else`. -/
def geom_lines (parts : List (List Char)) : List Char :=
  if parts.length = 1 then
    cs "   dim3 grid(1, 1);                                   \n" ++
    cs "   dim3 threads(" ++ parts.getD 0 [] ++ cs "end-" ++ parts.getD 0 [] ++
      cs "begin);\n\n"
  else if parts.length = 2 then
    cs "   dim3 grid(   " ++ parts.getD 0 [] ++ cs "end -" ++ parts.getD 0 [] ++
      cs "begin);  \n" ++
    cs "   dim3 threads(" ++ parts.getD 1 [] ++ cs "end-" ++ parts.getD 1 [] ++
      cs "begin);\n\n"
  else
    cs "   dim3 grid(   " ++ parts.getD 0 [] ++ cs "end -" ++ parts.getD 0 [] ++
      cs "begin," ++ parts.getD 1 [] ++ cs "end -" ++ parts.getD 1 [] ++
      cs "begin); \n" ++
    cs "   dim3 threads(" ++ parts.getD 2 [] ++ cs "end-" ++ parts.getD 2 [] ++
      cs "begin);\n\n"

/-- Decimal digit characters, modelling Python `str` on a nonnegative int
digit by digit. -/
def digitChar : Nat → Char
  | 0 => '0' | 1 => '1' | 2 => '2' | 3 => '3' | 4 => '4'
  | 5 => '5' | 6 => '6' | 7 => '7' | 8 => '8' | _ => '9'

/-- Numeric value of a decimal digit character (left inverse of
`digitChar` on digits). -/
def digitVal (c : Char) : Nat :=
  if c = '0' then 0 else if c = '1' then 1 else if c = '2' then 2
  else if c = '3' then 3 else if c = '4' then 4 else if c = '5' then 5
  else if c = '6' then 6 else if c = '7' then 7 else if c = '8' then 8 else 9

/-- Fuel-indexed worker for `natStr`; the fuel dominates the recursion
depth `n → n / 10`. -/
def natStrGo : Nat → Nat → List Char
  | 0, _ => []
  | fuel + 1, n =>
    if n < 10 then [digitChar n]
    else natStrGo fuel (n / 10) ++ [digitChar (n % 10)]

/-- Model of Python `str(n)` for a nonnegative integer: decimal digits,
most significant first, no leading zeros (and `"0"` for zero). -/
def natStr (n : Nat) : List Char := natStrGo (n + 1) n

/-- The generated name of line 72:
`kname = "magma_template" + "_" + str(kernel) + "_" + fname`. -/
def kname (kernel : Nat) (fname : List Char) : List Char :=
  cs "magma_template" ++ cs "_" ++ natStr kernel ++ cs "_" ++ fname

/-- The construct marker searched for by the scanner (lines 39-40). -/
def marker : List Char := cs "magma_template"

/-- The buffer advance of one scanner iteration (lines 42-59): skip the
marker (`prog = prog[i1+14:]`), then skip past the body span located by
`find_matching(prog,'{','}')` (`prog = prog[i2:]`). -/
def scan_advance (prog : List Char) (i1 : Nat) : List Char :=
  let rest := prog.drop (i1 + 14)
  let m := find_matching rest '{' '}'
  rest.drop m.2

/-- The scanner loop skeleton (lines 39-59): the fuel is the up-front trip
count `prog.count("magma_template")`; each iteration does
`prog.index("magma_template")`, which raises an uncaught `ValueError`
(modelled by `none`) when the remaining buffer holds no marker; on success
it records the generated `kname` and advances the buffer. -/
def scan_knames (fname : List Char) :
    Nat → Nat → List Char → Option (List (List Char) × List Char)
  | 0, _, prog => some ([], prog)
  | n + 1, k, prog =>
    match str_index prog marker with
    | none => none
    | some i1 =>
      match scan_knames fname n (k + 1) (scan_advance prog i1) with
      | none => none
      | some (names, tail) => some (kname k fname :: names, tail)

/-- The whole scanner run of `main`: trip count fixed up front as the number
of marker occurrences in the entire original buffer (line 39). -/
def translate_names (fname prog : List Char) :
    Option (List (List Char) × List Char) :=
  scan_knames fname (str_count prog marker) 0 prog

/-- Completion predicate for the scanner: every one of the `n` iterations
finds a marker occurrence in its remaining buffer. -/
def scan_completes : Nat → List Char → Bool
  | 0, _ => true
  | n + 1, prog =>
    match str_index prog marker with
    | none => false
    | some i1 => scan_completes n (scan_advance prog i1)

/-- The capture of the argument-list text by the scanner (line 53):
`args = prog[prog.find("(")+1 : prog.find(")")]`, performed on the
post-marker buffer (which still begins with the bounds text). -/
def capture_args (prog : List Char) : List Char :=
  pySlice prog (str_find prog (cs "(") + 1) (str_find prog (cs ")"))

/-! ## Command-line handling (gccm.py lines 19-21)

```
    if len(sys.argv) != 2:
        print('usage: %s <src.c>' % sys.argv[0])
        sys.exit(1)
```
`print` writes to the standard output stream; `sys.exit(1)` terminates with
status 1 before any output file is opened. -/

/-- Output channels of the process. -/
inductive Channel
  | stdout
  | stderr
deriving DecidableEq, Repr

/-- Observable effect of a rejected command line: the message printed, the
channel it goes to, the exit status, and the output files written before
exiting. -/
structure CliReject where
  channel : Channel
  exitCode : Nat
  message : List Char
  filesWritten : List (List Char)
deriving DecidableEq, Repr

/-- The usage message `'usage: %s <src.c>' % sys.argv[0]` (line 20). -/
def usage_msg (argv0 : List Char) : List Char :=
  cs "usage: " ++ argv0 ++ cs " <src.c>"

/-- The argument-count check of lines 19-21: with `len(sys.argv) != 2` the
program prints the usage message via `print` (standard output) and exits
with status 1, having written no files; otherwise it proceeds (`none`). -/
def cli_check (argv : List (List Char)) : Option CliReject :=
  if argv.length ≠ 2 then
    some ⟨Channel.stdout, 1, usage_msg (argv.headD []), []⟩
  else none

/-! ## Spec-side definitions for the launch-geometry refinement claim (C4)

These follow the spec's words (§4.5 table and the geometry property): the
launch geometry consists of one outer geometry axis per dimension beyond the
innermost, plus one per-group unit-count axis for the innermost dimension,
each computed as end minus begin. -/

/-- Spec-side geometry selection keyed by dimension count: outer geometry
axes (dimensions beyond the innermost, in order) and the unit-count axis
(the innermost dimension); `none` outside 1-3 dimensions. -/
def spec_launch_geometry (parts : List (List Char)) :
    Option (List (List Char) × List Char) :=
  match parts with
  | [d0] => some ([], d0)
  | [d0, d1] => some ([d0], d1)
  | [d0, d1, d2] => some ([d0, d1], d2)
  | _ => none

/-- An axis extent computed as end minus begin: `<d>end <sep> <d>begin`
(`sep` is the textual minus, with the source's spacing). -/
def axis_extent (d sep : List Char) : List Char :=
  d ++ cs "end" ++ sep ++ d ++ cs "begin"

/-- Rendering of the outer geometry axes as the `dim3 grid(...)` line:
trivial geometry `grid(1, 1)` for no outer axis, otherwise one extent per
outer axis. -/
def render_grid : List (List Char) → List Char
  | [] => cs "   dim3 grid(1, 1);                                   \n"
  | [a] => cs "   dim3 grid(   " ++ axis_extent a (cs " -") ++ cs ");  \n"
  | [a, b] =>
    cs "   dim3 grid(   " ++ axis_extent a (cs " -") ++ cs "," ++
      axis_extent b (cs " -") ++ cs "); \n"
  | _ => []

/-- Rendering of the per-group unit-count axis as the `dim3 threads(...)`
line: the innermost dimension's extent, end minus begin. -/
def render_threads (d : List Char) : List Char :=
  cs "   dim3 threads(" ++ axis_extent d (cs "-") ++ cs ");\n\n"

/-! ## Further spec-side and auxiliary definitions -/

/-- Decimal value of a digit string (left inverse of `natStr`, used to
prove `natStr` injective). -/
def strVal (s : List Char) : Nat :=
  s.foldl (fun a c => 10 * a + digitVal c) 0

/-- Spec-side nesting depth for the Bracket Matcher: the counter value
after scanning a prefix of the post-open buffer, starting from 1.  A
balanced close exists exactly when some nonempty prefix brings it to 0. -/
def delim_depth (left right : Char) (s : List Char) : Int :=
  s.foldl (delim_step left right) 1

/-- Comma-joined list of text pieces, as Python builds comma-separated
lists. -/
def joinC : List (List Char) → List Char
  | [] => []
  | [x] => x
  | x :: y :: rest => x ++ ',' :: joinC (y :: rest)

/-- Well-formedness of one comma-delimited declaration entry, presented as
the pair (prefix, trailing identifier): the prefix ends in a separator
(` `, `*` or `&`) located at index at least 1 of the entry, the trailing
identifier is nonempty and free of separators, and the whole entry is free
of the `,` and `)` characters the outer loop of `find_argslist` searches
for. -/
def wf_entry (pn : List Char × List Char) : Prop :=
  2 ≤ pn.1.length ∧
  is_sep (pn.1.getD (pn.1.length - 1) 'A') = true ∧
  (∀ c ∈ pn.1, c ≠ ',' ∧ c ≠ ')') ∧
  pn.2 ≠ [] ∧
  (∀ c ∈ pn.2, is_sep c = false ∧ c ≠ ',' ∧ c ≠ ')')

instance (pn : List Char × List Char) : Decidable (wf_entry pn) := by
  unfold wf_entry; infer_instance

/-- The bare argument names emitted at the host call site:
line 65, `boundargs += "," + find_argslist( args )`. -/
def callsite_argnames (args : List Char) : List Char := find_argslist args

/-- The bare argument names passed in the generated launch call:
line 119, `kernel += "   " + find_argslist( args ) + ");..."`. -/
def launch_argnames (args : List Char) : List Char := find_argslist args

/-- The name sequence implied by the kernel signature's declaration order:
the signature (line 93) splices the declaration list verbatim, so its
order is the entry order; this is the comma-joined list of the entries'
trailing identifiers, in that order. -/
def declaration_order_names (pns : List (List Char × List Char)) : List Char :=
  joinC (pns.map Prod.snd)


/-- C1: evaluation of the code at a two-dimensional invocation
(failing input: any 2-dimension bounds list, e.g. `e=0:n, i=0:m`).  The
emitted bindings take `partsinit[1] = "blockIdx.y"`, so the second
(innermost) dimension's index variable is bound from the inner block index,
not from the thread index as the spec's index-mapping table demands; the
source's `if (numparts == 2): partsinit[2] = partsinit[2]` is a no-op
self-assignment. -/
theorem c1_two_dim_thread_binding_missing :
    index_bindings [cs "e", cs "i"] =
      cs "   int e = blockIdx.x;      \n" ++ cs "   int i = blockIdx.y;      \n" ∧
    (partsinit 2).getD 1 [] = cs "blockIdx.y" ∧
    (partsinit 2).getD 1 [] ≠ cs "threadIdx.x" := by decide

/-- C2: evaluation of the code at the spec's own failing input
`e0:r->nelem` (clause missing `=`).  `find_argsbound` has no error path at
all: `numargs = bounds.count("=")` is `0`, the loop body never runs, and the
parser silently returns the empty pair instead of a `MalformedBounds`
failure. -/
theorem c2_malformed_bounds_silent :
    find_argsbound (cs "e0:r->nelem") = (cs "", cs "") := by decide

/-- C3 counterexample: with a `(` inside the bounds expressions
(post-marker buffer `<<e=f(0):n>>(x){y}`), the scanner's
`prog[prog.find("(")+1 : prog.find(")")]` captures `0` — the text inside
the bounds call `f(0)` — instead of the argument list `x` that lies between
the first `(` after the bounds clause and its matched `)`. -/
theorem c3_counterexample :
    capture_args (cs "<<e=f(0):n>>(x){y}") = cs "0" ∧ cs "0" ≠ cs "x" := by
  decide

/-- C4: the launch wrapper's geometry is a function of dimension count
exactly as the spec's table states: for every dimension count in 1-3, the
emitted `dim3` lines are the rendering of the spec-side geometry — one
outer grid axis per dimension beyond the innermost (trivial `grid(1, 1)`
when there is none) and the innermost dimension as the per-group
unit-count axis, each extent computed as end minus begin. -/
theorem c4_launch_geometry (parts outer : List (List Char)) (unit : List Char)
    (h : spec_launch_geometry parts = some (outer, unit)) :
    geom_lines parts = render_grid outer ++ render_threads unit := by
  match parts, h with
  | [d0], h =>
    simp only [spec_launch_geometry, Option.some.injEq, Prod.mk.injEq] at h
    obtain ⟨h1, h2⟩ := h
    subst h1; subst h2
    simp only [geom_lines, render_grid, render_threads, axis_extent,
      List.length_cons, List.length_nil, List.getD, List.append_assoc]
    rfl
  | [d0, d1], h =>
    simp only [spec_launch_geometry, Option.some.injEq, Prod.mk.injEq] at h
    obtain ⟨h1, h2⟩ := h
    subst h1; subst h2
    simp only [geom_lines, render_grid, render_threads, axis_extent,
      List.length_cons, List.length_nil, List.getD, List.append_assoc]
    rfl
  | [d0, d1, d2], h =>
    simp only [spec_launch_geometry, Option.some.injEq, Prod.mk.injEq] at h
    obtain ⟨h1, h2⟩ := h
    subst h1; subst h2
    simp only [geom_lines, render_grid, render_threads, axis_extent,
      List.length_cons, List.length_nil, List.getD, List.append_assoc]
    rfl

/-- C4 witness: the two-dimensional case at concrete dimension names
`e`, `i`: one outer grid axis from dimension 0 and the unit-count axis
from dimension 1. -/
theorem c4_launch_geometry_witness :
    geom_lines [cs "e", cs "i"] =
      render_grid [cs "e"] ++ render_threads (cs "i") :=
  c4_launch_geometry [cs "e", cs "i"] [cs "e"] (cs "i") (by decide)

/-- C7 counterexample: a comma-delimited entry that is a bare identifier
(`uu`) yields nothing at all — the backward scan probes positions
`i1, …, 1` only, finds no separator, never breaks, and the entry is
skipped — instead of yielding the identifier itself as the claim states. -/
theorem c7_counterexample :
    find_argslist (cs "uu") = [] ∧ find_argslist (cs "uu") ≠ cs "uu" := by
  decide

/-- C9 counterexample: invoked with no positional argument
(`sys.argv = ["gccm.py"]`), the program prints the usage message via
`print`, i.e. to standard output, not to the error channel as the claim
states (exit status 1 and the empty written-file list are as claimed). -/
theorem c9_counterexample :
    cli_check [cs "gccm.py"] =
      some ⟨Channel.stdout, 1, cs "usage: gccm.py <src.c>", []⟩ ∧
    Channel.stdout ≠ Channel.stderr := by decide

/-- C9 amended: when invoked with a command-line argument count other than
exactly one positional argument, the program prints the usage message to
standard output, exits with status 1, and writes no output files. -/
theorem c9_amended_usage_exit (argv : List (List Char))
    (h : argv.length ≠ 2) :
    cli_check argv =
      some ⟨Channel.stdout, 1, usage_msg (argv.headD []), []⟩ := by
  simp [cli_check, h]

/-- C9 witness: the zero-positional-argument invocation. -/
theorem c9_amended_witness :
    cli_check [cs "gccm.py"] =
      some ⟨Channel.stdout, 1, usage_msg ([cs "gccm.py"].headD []), []⟩ :=
  c9_amended_usage_exit [cs "gccm.py"] (by decide)

/-- Helper for C8: if every nonempty prefix of the remaining buffer keeps
the nesting counter away from zero, the scanning loop of `find_matching`
runs off the end of the buffer. -/
theorem fm_go_eq_none (left right : Char) :
    ∀ (s : List Char) (num : Int) (i : Nat),
      (∀ k, k ≤ s.length → 1 ≤ k →
        (s.take k).foldl (delim_step left right) num ≠ 0) →
      fm_go left right s num i = none := by
  intro s
  induction s with
  | nil => intro num i _; rfl
  | cons c rest ih =>
    intro num i h
    have h1 : delim_step left right num c ≠ 0 := by
      have h2 := h 1 (by simp) le_rfl
      simpa using h2
    simp only [fm_go]
    rw [if_neg h1]
    apply ih
    intro k hk hk1
    have h3 := h (k + 1) (by simpa using hk) (by omega)
    simpa using h3

/-- C8: for every buffer in which no closing delimiter balances the first
opening delimiter before the end of the buffer (no nonempty prefix of the
post-open text brings the nesting depth to zero), the Bracket Matcher
silently returns the remainder of the buffer as the matched span — end
index equal to the buffer length — instead of signaling an error. -/
theorem c8_unbalanced_remainder (line : List Char) (left right : Char)
    (_hfirst : left ∈ line)
    (h : ∀ k, k ≤ (line.drop (str_find line [left] + 1).toNat).length →
        1 ≤ k →
        delim_depth left right
          ((line.drop (str_find line [left] + 1).toNat).take k) ≠ 0) :
    find_matching line left right = (str_find line [left], line.length) := by
  unfold find_matching
  have hnone :
      fm_go left right (line.drop (str_find line [left] + 1).toNat) 1
        (str_find line [left] + 1).toNat = none := by
    apply fm_go_eq_none
    intro k hk hk1
    exact h k hk hk1
  simp only [hnone]

/-- C8 witness: buffer `x((a)` whose first `(` is never balanced; the
matcher returns the span from that `(` to the buffer end. -/
theorem c8_unbalanced_remainder_witness :
    find_matching (cs "x((a)") '(' ')' =
      (str_find (cs "x((a)") ['('], (cs "x((a)").length) :=
  c8_unbalanced_remainder (cs "x((a)") '(' ')' (by decide) (by decide)

/-- Helper for C5: appending a digit multiplies the accumulated value by
ten and adds the digit's value. -/
theorem strVal_append_digit (xs : List Char) (c : Char) :
    strVal (xs ++ [c]) = 10 * strVal xs + digitVal c := by
  simp [strVal, List.foldl_append]

/-- Helper for C5: `digitVal` inverts `digitChar` on digits. -/
theorem digitVal_digitChar (d : Nat) (h : d < 10) :
    digitVal (digitChar d) = d := by
  interval_cases d <;> rfl

/-- Helper for C5: `strVal` recovers the number from its decimal string,
for any sufficient fuel. -/
theorem strVal_natStrGo (fuel : Nat) :
    ∀ n, n < fuel → strVal (natStrGo fuel n) = n := by
  induction fuel with
  | zero => intro n h; omega
  | succ fuel ih =>
    intro n h
    by_cases h10 : n < 10
    · simp only [natStrGo, if_pos h10]
      have hs : strVal [digitChar n] = digitVal (digitChar n) := by
        simp [strVal]
      rw [hs, digitVal_digitChar n h10]
    · have hd : n / 10 < fuel := by
        have h2 := Nat.div_lt_self (show 0 < n by omega) (show 1 < 10 by omega)
        omega
      simp only [natStrGo, if_neg h10]
      rw [strVal_append_digit, ih (n / 10) hd,
        digitVal_digitChar (n % 10) (Nat.mod_lt _ (by omega))]
      omega

/-- Helper for C5: the decimal rendering of a natural number is injective
(distinct ordinals yield distinct digit strings). -/
theorem natStr_injective : Function.Injective natStr := by
  intro a b h
  have ha : strVal (natStr a) = a := strVal_natStrGo (a + 1) a (Nat.lt_succ_self a)
  have hb : strVal (natStr b) = b := strVal_natStrGo (b + 1) b (Nat.lt_succ_self b)
  rw [← ha, ← hb, h]

/-- Helper for C5: for a fixed file stem, the generated-name rule is
injective in the ordinal. -/
theorem kname_injective (fname : List Char) :
    Function.Injective fun k => kname k fname := by
  intro a b h
  simp only [kname, List.append_assoc] at h
  have h1 := List.append_cancel_left h
  have h2 := List.append_cancel_left h1
  have h3 := List.append_cancel_right h2
  exact natStr_injective h3

/-- Helper for C5: a completed scanner run records exactly the names
`kname k, kname (k+1), …` for its `n` iterations, in iteration order. -/
theorem scan_knames_names (fname : List Char) :
    ∀ (n k : Nat) (prog : List Char) (names : List (List Char))
      (tail : List Char),
      scan_knames fname n k prog = some (names, tail) →
      names = (List.range' k n).map fun j => kname j fname := by
  intro n
  induction n with
  | zero =>
    intro k prog names tail h
    simp only [scan_knames, Option.some.injEq, Prod.mk.injEq] at h
    simp [← h.1]
  | succ n ih =>
    intro k prog names tail h
    simp only [scan_knames] at h
    cases hidx : str_index prog marker with
    | none => rw [hidx] at h; simp at h
    | some i1 =>
      rw [hidx] at h
      dsimp only at h
      cases hrec : scan_knames fname n (k + 1) (scan_advance prog i1) with
      | none => rw [hrec] at h; simp at h
      | some r =>
        rw [hrec] at h
        cases r with
        | mk ns tl =>
          simp only [Option.some.injEq, Prod.mk.injEq] at h
          rw [← h.1, List.range'_succ]
          simp [ih (k + 1) (scan_advance prog i1) ns tl hrec]

/-- C5: whenever the translator's scanner run over an input completes, the
recorded generated names are exactly
`magma_template_<ordinal>_<filestem>` for ordinals `0..N-1` assigned in
order of first occurrence (`N` being the up-front marker count), and hence
are pairwise distinct. -/
theorem c5_generated_names (fname prog : List Char)
    (names : List (List Char)) (tail : List Char)
    (h : translate_names fname prog = some (names, tail)) :
    names =
      (List.range (str_count prog marker)).map (fun k => kname k fname) ∧
    names.Nodup := by
  have h1 := scan_knames_names fname (str_count prog marker) 0 prog names tail h
  constructor
  · rw [List.range_eq_range']; exact h1
  · rw [h1]
    exact List.Nodup.map (kname_injective fname) (List.nodup_range' 0 _)

/-- C5 witness: a one-invocation input with file stem `src` produces the
single name `magma_template_0_src`. -/
theorem c5_generated_names_witness :
    [cs "magma_template_0_src"] =
      (List.range
          (str_count (cs "magma_template<<e=0:n>>(int *a){x}") marker)).map
        (fun k => kname k (cs "src")) ∧
    ([cs "magma_template_0_src"] : List (List Char)).Nodup :=
  c5_generated_names (cs "src") (cs "magma_template<<e=0:n>>(int *a){x}")
    [cs "magma_template_0_src"] [] (by decide)

/-- C10: the scanner loop runs a trip count fixed up front
(`translate_names` hands `scan_knames` the marker count of the whole
original buffer) and completes — `isSome` — exactly when every iteration
finds a marker in its remaining buffer; moreover, at a concrete input whose
body contains the marker text, the consumed span swallows the second
occurrence, the second iteration finds no marker, and the run aborts
(`none`, modelling the uncaught `ValueError` of `prog.index`). -/
theorem c10_scan_fuel_abort :
    (∀ (fname : List Char) (n k : Nat) (prog : List Char),
        (scan_knames fname n k prog).isSome = scan_completes n prog) ∧
    translate_names (cs "f")
      (cs "magma_template<<e=0:n>>(int *a){magma_template}") = none := by
  constructor
  · intro fname n
    induction n with
    | zero => intro k prog; rfl
    | succ n ih =>
      intro k prog
      simp only [scan_knames, scan_completes]
      cases h : str_index prog marker with
      | none => rfl
      | some i1 =>
        dsimp only
        rw [← ih (k + 1) (scan_advance prog i1)]
        cases h2 : scan_knames fname n (k + 1) (scan_advance prog i1) with
        | none => rfl
        | some r => cases r; rfl
  · decide

/-- Helper: first occurrence of a single character standing after a clean
prefix. -/
theorem str_index_append_cons (c : Char) :
    ∀ (xs ys : List Char), c ∉ xs →
      str_index (xs ++ c :: ys) [c] = some xs.length := by
  intro xs
  induction xs with
  | nil =>
    intro ys _
    simp [str_index, List.isPrefixOf]
  | cons x xs ih =>
    intro ys h
    have hx : c ≠ x := fun hcx => h (by simp [hcx])
    have hxs : c ∉ xs := fun hc => h (by simp [hc])
    simp only [List.cons_append, str_index, List.isPrefixOf, List.isPrefixOf_nil_left,
      Bool.and_true]
    rw [if_neg (by simpa using hx)]
    simp only [List.append_eq]
    rw [ih ys hxs]
    rfl

/-- Helper: a single character absent from the buffer is never found. -/
theorem str_index_none (c : Char) :
    ∀ (s : List Char), c ∉ s → str_index s [c] = none := by
  intro s
  induction s with
  | nil => intro _; rfl
  | cons x xs ih =>
    intro h
    have hx : c ≠ x := fun hcx => h (by simp [hcx])
    simp only [str_index, List.isPrefixOf, List.isPrefixOf_nil_left, Bool.and_true]
    rw [if_neg (by simpa using hx)]
    rw [ih (fun hc => h (by simp [hc]))]
    rfl

/-- Helper: the backward separator scan finds the highest separator
position in `[1, m]` when one exists at `p` and none above it. -/
theorem back_sep_finds (args : List Char) (p : Nat) :
    ∀ m, p ≤ m → 1 ≤ p → is_sep (args.getD p 'A') = true →
      (∀ q, p < q → q ≤ m → is_sep (args.getD q 'A') = false) →
      back_sep args m = some p := by
  intro m
  induction m with
  | zero => intro hpm hp _ _; omega
  | succ m ih =>
    intro hpm hp hsep habove
    by_cases hpe : p = m + 1
    · subst hpe
      simp only [back_sep]
      rw [hsep]
      simp
    · have hlt : p ≤ m := by omega
      have habv : is_sep (args.getD (m + 1) 'A') = false :=
        habove (m + 1) (by omega) le_rfl
      simp only [back_sep]
      rw [habv]
      simp only [Bool.false_eq_true, if_false]
      exact ih hlt hp hsep fun q hq hq2 => habove q hq (by omega)

/-- Helper: the backward separator scan fails when no position in
`[1, m]` holds a separator. -/
theorem back_sep_none (args : List Char) :
    ∀ m, (∀ q, 1 ≤ q → q ≤ m → is_sep (args.getD q 'A') = false) →
      back_sep args m = none := by
  intro m
  induction m with
  | zero => intro _; rfl
  | succ m ih =>
    intro h
    have htop : is_sep (args.getD (m + 1) 'A') = false :=
      h (m + 1) (by omega) le_rfl
    simp only [back_sep]
    rw [htop]
    simp only [Bool.false_eq_true, if_false]
    exact ih fun q h1 h2 => h q h1 (by omega)

/-- Helper: inside one well-formed entry followed by a terminator that is
not a separator, the backward scan stops exactly at the entry's last
separator, the one that precedes the trailing identifier. -/
theorem back_sep_entry (pre name : List Char) (t : Char) (rest : List Char)
    (hlen : 2 ≤ pre.length)
    (hsep : is_sep (pre.getD (pre.length - 1) 'A') = true)
    (hname : ∀ c ∈ name, is_sep c = false) (ht : is_sep t = false) :
    back_sep ((pre ++ name) ++ t :: rest) (pre ++ name).length =
      some (pre.length - 1) := by
  have hL : (pre ++ name).length = pre.length + name.length :=
    List.length_append _ _
  apply back_sep_finds
  · omega
  · omega
  · have e1 : ((pre ++ name) ++ t :: rest).getD (pre.length - 1) 'A' =
        pre.getD (pre.length - 1) 'A' := by
      rw [List.append_assoc]
      exact List.getD_append _ _ _ _ (by omega)
    rw [e1]; exact hsep
  · intro q hq hq2
    by_cases hqe : q = (pre ++ name).length
    · subst hqe
      have e2 : ((pre ++ name) ++ t :: rest).getD (pre ++ name).length 'A' = t := by
        rw [List.getD_append_right _ _ _ _ le_rfl]
        simp
      rw [e2]; exact ht
    · have hq3 : q < (pre ++ name).length := by omega
      have e3 : ((pre ++ name) ++ t :: rest).getD q 'A' = (pre ++ name).getD q 'A' :=
        List.getD_append _ _ _ _ hq3
      have hq4 : pre.length ≤ q := by omega
      have e4 : (pre ++ name).getD q 'A' = name.getD (q - pre.length) 'A' :=
        List.getD_append_right _ _ _ _ hq4
      have hq5 : q - pre.length < name.length := by omega
      rw [e3, e4, List.getD_eq_getElem name 'A' hq5]
      exact hname _ (List.getElem_mem hq5)

/-- Helper: one iteration of `find_argslist`'s loop on a well-formed entry
terminated by a comma consumes the entry and appends its trailing
identifier. -/
theorem argslist_go_comma (pre name rest acc : List Char) (n : Nat)
    (h : wf_entry (pre, name)) :
    find_argslist_go (n + 1) ((pre ++ name) ++ ',' :: rest) acc =
      find_argslist_go n rest (acc ++ ',' :: name) := by
  obtain ⟨hlen, hsep, hpre, hname, hnc⟩ := h
  dsimp only at hlen hsep hpre hname hnc
  have hL : (pre ++ name).length = pre.length + name.length :=
    List.length_append _ _
  have hcomma : ',' ∉ pre ++ name := by
    intro hmem
    rcases List.mem_append.mp hmem with hm | hm
    · exact (hpre ',' hm).1 rfl
    · exact (hnc ',' hm).2.1 rfl
  have hfind : str_find ((pre ++ name) ++ ',' :: rest) (cs ",") =
      (((pre ++ name).length : Nat) : Int) := by
    have hidx := str_index_append_cons ',' (pre ++ name) rest hcomma
    simp only [str_find, show (cs ",") = [','] from rfl, hidx]
  have hdrop1 : ((pre ++ name) ++ ',' :: rest).drop ((pre ++ name).length + 1) =
      rest := by
    rw [← List.drop_drop, List.drop_left]
    rfl
  have e5 : pre.length - 1 + 1 = pre.length := by omega
  have hdrop2 : ((pre ++ name) ++ ',' :: rest).drop (pre.length - 1 + 1) =
      name ++ ',' :: rest := by
    rw [e5, List.append_assoc]
    exact List.drop_left _ _
  have htake : (name ++ ',' :: rest).take
      ((pre ++ name).length - (pre.length - 1 + 1)) = name := by
    have e6 : (pre ++ name).length - (pre.length - 1 + 1) = name.length := by
      omega
    rw [e6]
    exact List.take_left _ _
  have hacc : acc ++ [','] ++ name = acc ++ ',' :: name := by
    rw [List.append_assoc]; rfl
  simp only [find_argslist_go]
  rw [hfind]
  rw [if_neg (show ¬ ((((pre ++ name).length : Nat) : Int) = -1) by omega)]
  rw [Int.toNat_natCast]
  rw [back_sep_entry pre name ',' rest hlen hsep
    (fun c hc => (hnc c hc).1) (by rfl)]
  dsimp only
  rw [hdrop1, hdrop2, htake, hacc]

/-- Helper: the final iteration, on a well-formed entry terminated by the
appended `)`, consumes the entry likewise and leaves the empty buffer. -/
theorem argslist_go_close (pre name acc : List Char) (n : Nat)
    (h : wf_entry (pre, name)) :
    find_argslist_go (n + 1) ((pre ++ name) ++ [')']) acc =
      find_argslist_go n [] (acc ++ ',' :: name) := by
  obtain ⟨hlen, hsep, hpre, hname, hnc⟩ := h
  dsimp only at hlen hsep hpre hname hnc
  have hL : (pre ++ name).length = pre.length + name.length :=
    List.length_append _ _
  have hcomma : ',' ∉ (pre ++ name) ++ [')'] := by
    intro hmem
    rcases List.mem_append.mp hmem with hm | hm
    · rcases List.mem_append.mp hm with hm2 | hm2
      · exact (hpre ',' hm2).1 rfl
      · exact (hnc ',' hm2).2.1 rfl
    · simp at hm
  have hclose : ')' ∉ pre ++ name := by
    intro hmem
    rcases List.mem_append.mp hmem with hm | hm
    · exact (hpre ')' hm).2 rfl
    · exact (hnc ')' hm).2.2 rfl
  have hfind1 : str_find ((pre ++ name) ++ [')']) (cs ",") = -1 := by
    have hidx := str_index_none ',' ((pre ++ name) ++ [')']) hcomma
    simp only [str_find, show (cs ",") = [','] from rfl, hidx]
  have hfind2 : str_find ((pre ++ name) ++ [')']) (cs ")") =
      (((pre ++ name).length : Nat) : Int) := by
    have hidx := str_index_append_cons ')' (pre ++ name) [] hclose
    simp only [str_find, show (cs ")") = [')'] from rfl, hidx]
  have hdrop1 : ((pre ++ name) ++ [')']).drop ((pre ++ name).length + 1) =
      ([] : List Char) := by
    rw [← List.drop_drop, List.drop_left]
    rfl
  have e5 : pre.length - 1 + 1 = pre.length := by omega
  have hdrop2 : ((pre ++ name) ++ [')']).drop (pre.length - 1 + 1) =
      name ++ [')'] := by
    rw [e5, List.append_assoc]
    exact List.drop_left _ _
  have htake : (name ++ [')']).take
      ((pre ++ name).length - (pre.length - 1 + 1)) = name := by
    have e6 : (pre ++ name).length - (pre.length - 1 + 1) = name.length := by
      omega
    rw [e6]
    exact List.take_left _ _
  have hacc : acc ++ [','] ++ name = acc ++ ',' :: name := by
    rw [List.append_assoc]; rfl
  simp only [find_argslist_go]
  rw [hfind1]
  rw [if_pos rfl, hfind2]
  rw [Int.toNat_natCast]
  rw [back_sep_entry pre name ')' [] hlen hsep
    (fun c hc => (hnc c hc).1) (by rfl)]
  dsimp only
  rw [hdrop1, hdrop2, htake, hacc]

/-- Helper: the loop does nothing on an exhausted buffer (the backward
scan never fires, so each remaining iteration is a no-op). -/
theorem argslist_go_nil : ∀ (n : Nat) (acc : List Char),
    find_argslist_go n [] acc = acc := by
  intro n
  induction n with
  | zero => intro acc; rfl
  | succ n ih => intro acc; exact ih acc

/-- Helper: flattening the comma-prefixed names of a nonempty entry list
gives a leading comma followed by the comma-joined names. -/
theorem flatten_names (pns : List (List Char × List Char)) (h : pns ≠ []) :
    (pns.map fun pn => ',' :: pn.2).flatten =
      ',' :: joinC (pns.map Prod.snd) := by
  induction pns with
  | nil => simp at h
  | cons pn rest ih =>
    cases rest with
    | nil => simp [joinC]
    | cons q qs =>
      simp only [List.map_cons, List.flatten_cons] at ih ⊢
      rw [ih (by simp)]
      simp [joinC]

/-- Helper: running the loop for exactly one iteration per well-formed
entry extracts every trailing identifier, in entry order. -/
theorem argslist_go_entries :
    ∀ (pns : List (List Char × List Char)) (acc : List Char),
      (∀ pn ∈ pns, wf_entry pn) →
      find_argslist_go pns.length
          (joinC (pns.map fun pn => pn.1 ++ pn.2) ++ [')']) acc =
        acc ++ (pns.map fun pn => ',' :: pn.2).flatten := by
  intro pns
  induction pns with
  | nil => intro acc _; simp [joinC, find_argslist_go]
  | cons pn rest ih =>
    intro acc h
    cases rest with
    | nil =>
      have hw : wf_entry (pn.1, pn.2) := h pn (by simp)
      simp only [List.map_cons, List.map_nil, joinC, List.length_cons,
        List.length_nil]
      rw [argslist_go_close pn.1 pn.2 acc 0 hw]
      rw [argslist_go_nil]
      simp
    | cons q qs =>
      have hw : wf_entry (pn.1, pn.2) := h pn (by simp)
      have hrest : ∀ x ∈ q :: qs, wf_entry x := fun x hx => h x (by simp [hx])
      have hassoc : ∀ (a b j : List Char),
          a ++ b ++ ',' :: j ++ [')'] = (a ++ b) ++ ',' :: (j ++ [')']) := by
        intro a b j
        simp [List.append_assoc]
      simp only [List.map_cons, joinC, List.length_cons]
      rw [hassoc]
      rw [argslist_go_comma pn.1 pn.2 _ acc _ hw]
      simp only [List.map_cons, List.length_cons] at ih
      rw [ih (acc ++ ',' :: pn.2) hrest]
      simp [List.append_assoc]

/-- Helper: counting a single character equals `List.count`, for any
sufficient fuel. -/
theorem str_count_go_singleton (c : Char) :
    ∀ (fuel : Nat) (s : List Char), s.length < fuel →
      str_count_go fuel s [c] = s.count c := by
  intro fuel
  induction fuel with
  | zero => intro s h; omega
  | succ fuel ih =>
    intro s h
    cases s with
    | nil => rfl
    | cons x rest =>
      simp only [str_count_go]
      by_cases hx : c = x
      · subst hx
        rw [if_pos (by simp [List.isPrefixOf])]
        show 1 + str_count_go fuel rest [c] = (c :: rest).count c
        rw [ih rest (by simpa using h)]
        simp [List.count_cons]
        omega
      · rw [if_neg (by simp [List.isPrefixOf, hx])]
        show str_count_go fuel rest [c] = (x :: rest).count c
        rw [ih rest (by simpa using h)]
        simp [List.count_cons, Ne.symm hx]

/-- Helper: `str_count` with a single-character pattern is `List.count`. -/
theorem str_count_singleton (s : List Char) (c : Char) :
    str_count s [c] = s.count c :=
  str_count_go_singleton c (s.length + 1) s (Nat.lt_succ_self _)

/-- Helper: the comma count of a comma-joined list of comma-free pieces is
one less than the number of pieces. -/
theorem count_joinC (entries : List (List Char))
    (h : ∀ e ∈ entries, ',' ∉ e) :
    (joinC entries).count ',' = entries.length - 1 := by
  induction entries with
  | nil => rfl
  | cons e rest ih =>
    cases rest with
    | nil =>
      simp only [joinC]
      rw [List.count_eq_zero.mpr (h e (by simp))]
      rfl
    | cons f fs =>
      have h2 : ∀ x ∈ f :: fs, ',' ∉ x := fun x hx => h x (by simp [hx])
      simp only [joinC, List.count_append, List.count_cons]
      rw [ih h2]
      rw [List.count_eq_zero.mpr (h e (by simp))]
      simp only [List.length_cons]
      simp

/-- Helper: `find_argslist` on a comma-joined list of well-formed entries
returns the comma-joined trailing identifiers, in declaration order. -/
theorem find_argslist_entries (pns : List (List Char × List Char))
    (h : ∀ pn ∈ pns, wf_entry pn) :
    find_argslist (joinC (pns.map fun pn => pn.1 ++ pn.2)) =
      joinC (pns.map Prod.snd) := by
  cases pns with
  | nil => rfl
  | cons pn rest =>
    have hnc : ∀ e ∈ (pn :: rest).map (fun pn => pn.1 ++ pn.2), ',' ∉ e := by
      intro e he
      rcases List.mem_map.mp he with ⟨x, hx, hxe⟩
      obtain ⟨_, _, hp1, _, hp2⟩ := h x hx
      intro hmem
      rw [← hxe] at hmem
      rcases List.mem_append.mp hmem with hm | hm
      · exact (hp1 ',' hm).1 rfl
      · exact (hp2 ',' hm).2.1 rfl
    simp only [find_argslist]
    rw [show (cs ")") = ([')'] : List Char) from rfl,
      show (cs ",") = ([','] : List Char) from rfl]
    rw [str_count_singleton, List.count_append,
      count_joinC _ hnc]
    rw [show (List.count ',' [')'] : Nat) = 0 from rfl]
    rw [show ((pn :: rest).map fun pn => pn.1 ++ pn.2).length - 1 + 0 + 1 =
        ((pn :: rest).map fun pn => pn.1 ++ pn.2).length from by simp]
    rw [List.length_map]
    rw [argslist_go_entries (pn :: rest) [] h]
    rw [List.nil_append, flatten_names (pn :: rest) (by simp)]
    rfl

/-- C6: for a declaration list of well-formed entries, the bare argument
names emitted at the host call site (line 65) and those passed in the
launch call (line 119) are the identical sequence, equal to the trailing
identifiers of the kernel signature's declarations in their original
declaration order. -/
theorem c6_argument_order (pns : List (List Char × List Char))
    (h : ∀ pn ∈ pns, wf_entry pn) :
    callsite_argnames (joinC (pns.map fun pn => pn.1 ++ pn.2)) =
      declaration_order_names pns ∧
    launch_argnames (joinC (pns.map fun pn => pn.1 ++ pn.2)) =
      declaration_order_names pns :=
  ⟨find_argslist_entries pns h, find_argslist_entries pns h⟩

/-- C6 witness: the two-entry declaration list
`const Scalar *uu,Scalar *vv`. -/
theorem c6_argument_order_witness :
    callsite_argnames (joinC ([(cs "const Scalar *", cs "uu"),
        (cs "Scalar *", cs "vv")].map fun pn => pn.1 ++ pn.2)) =
      declaration_order_names
        [(cs "const Scalar *", cs "uu"), (cs "Scalar *", cs "vv")] ∧
    launch_argnames (joinC ([(cs "const Scalar *", cs "uu"),
        (cs "Scalar *", cs "vv")].map fun pn => pn.1 ++ pn.2)) =
      declaration_order_names
        [(cs "const Scalar *", cs "uu"), (cs "Scalar *", cs "vv")] :=
  c6_argument_order
    [(cs "const Scalar *", cs "uu"), (cs "Scalar *", cs "vv")] (by decide)

/-- C7 amended: for a comma-delimited entry whose trailing identifier is
preceded by a separator (` `, `*`, `&`) at index at least 1 of the entry,
the extracted bare identifier is exactly the trailing run after that
separator (the backward scan stops at the first separator encountered);
but an entry containing no such separator — in particular a bare
identifier — yields no name at all and is skipped. -/
theorem c7_amended_trailing_identifier :
    (∀ pre name : List Char, wf_entry (pre, name) →
        find_argslist (pre ++ name) = name) ∧
    (∀ name : List Char, name ≠ [] →
        (∀ c ∈ name, is_sep c = false ∧ c ≠ ',' ∧ c ≠ ')') →
        find_argslist name = []) := by
  constructor
  · intro pre name hw
    have h1 := find_argslist_entries [(pre, name)] (by
      intro pn hpn
      simp only [List.mem_singleton] at hpn
      subst hpn
      exact hw)
    simpa [joinC] using h1
  · intro name _hne hchars
    have hcomma : ',' ∉ name ++ [')'] := by
      intro hm
      rcases List.mem_append.mp hm with hm2 | hm2
      · exact (hchars ',' hm2).2.1 rfl
      · simp at hm2
    have hclose : ')' ∉ name := fun hm => (hchars ')' hm).2.2 rfl
    have hfind1 : str_find (name ++ [')']) (cs ",") = -1 := by
      have hidx := str_index_none ',' (name ++ [')']) hcomma
      simp only [str_find, show (cs ",") = [','] from rfl, hidx]
    have hfind2 : str_find (name ++ [')']) (cs ")") =
        ((name.length : Nat) : Int) := by
      have hidx := str_index_append_cons ')' name [] hclose
      simp only [str_find, show (cs ")") = [')'] from rfl, hidx]
    have hbs : back_sep (name ++ [')']) name.length = none := by
      apply back_sep_none
      intro q h1 h2
      by_cases hqe : q = name.length
      · subst hqe
        have e2 : (name ++ [')']).getD name.length 'A' = ')' := by
          rw [List.getD_append_right _ _ _ _ le_rfl]
          simp
        rw [e2]; rfl
      · have hq3 : q < name.length := by omega
        have e3 : (name ++ [')']).getD q 'A' = name.getD q 'A' :=
          List.getD_append _ _ _ _ hq3
        rw [e3, List.getD_eq_getElem name 'A' hq3]
        exact (hchars _ (List.getElem_mem hq3)).1
    have hcount : str_count (name ++ [')']) (cs ",") = 0 := by
      rw [show (cs ",") = [','] from rfl, str_count_singleton,
        List.count_eq_zero.mpr hcomma]
    simp only [find_argslist]
    rw [show (cs ")") = ([')'] : List Char) from rfl]
    rw [hcount]
    simp only [Nat.zero_add]
    simp only [find_argslist_go]
    rw [hfind1, if_pos rfl, hfind2, Int.toNat_natCast, hbs]
    rfl

/-- C7 witness: the entry `const Scalar *uu` yields `uu`; the bare entry
`uu` yields nothing. -/
theorem c7_amended_witness :
    find_argslist (cs "const Scalar *" ++ cs "uu") = cs "uu" ∧
    find_argslist (cs "uu") = [] :=
  ⟨c7_amended_trailing_identifier.1 (cs "const Scalar *") (cs "uu")
      (by decide),
    c7_amended_trailing_identifier.2 (cs "uu") (by decide) (by decide)⟩

/-- Helper for C3: Python's slice-index normalisation on a nonnegative
index clamps at the buffer length. -/
theorem pyIndex_natCast (len j : Nat) : pyIndex len (j : Int) = min j len := by
  simp only [pyIndex]
  rw [if_neg (by omega : ¬ ((j : Int) < 0))]
  rw [if_neg (by omega : ¬ ((j : Int) < 0))]
  by_cases hj : (j : Int) > (len : Int)
  · rw [if_pos hj]; omega
  · rw [if_neg hj]
    rw [Int.toNat_natCast]
    omega

/-- C3 amended: the argument-list capture
`prog[prog.find("(")+1 : prog.find(")")]` equals the declared argument
list exactly when the text before the argument list's `(` (which includes
the bounds clause) contains no parenthesis and the argument list itself
contains none — the capture is not nesting-aware and scans the whole
post-marker buffer. -/
theorem c3_amended_scan_capture (pre args rest : List Char)
    (h1 : '(' ∉ pre) (h2 : ')' ∉ pre) (_h3 : '(' ∉ args) (h4 : ')' ∉ args) :
    capture_args (pre ++ '(' :: (args ++ ')' :: rest)) = args := by
  have hfo : str_find (pre ++ '(' :: (args ++ ')' :: rest)) (cs "(") =
      ((pre.length : Nat) : Int) := by
    have hidx := str_index_append_cons '(' pre (args ++ ')' :: rest) h1
    simp only [str_find, show (cs "(") = ['('] from rfl, hidx]
  have hfc : str_find (pre ++ '(' :: (args ++ ')' :: rest)) (cs ")") =
      (((pre.length + 1 + args.length : Nat)) : Int) := by
    have hnc : ')' ∉ pre ++ '(' :: args := by
      intro hm
      rcases List.mem_append.mp hm with hm2 | hm2
      · exact h2 hm2
      · rcases List.mem_cons.mp hm2 with hm3 | hm3
        · exact absurd hm3 (by decide)
        · exact h4 hm3
    have hidx := str_index_append_cons ')' (pre ++ '(' :: args) rest hnc
    have hre : (pre ++ '(' :: args) ++ ')' :: rest =
        pre ++ '(' :: (args ++ ')' :: rest) := by
      simp [List.append_assoc]
    have hlen : (pre ++ '(' :: args).length = pre.length + 1 + args.length := by
      simp
      omega
    rw [hre, hlen] at hidx
    simp only [str_find, show (cs ")") = [')'] from rfl, hidx]
  simp only [capture_args, pySlice]
  rw [hfo, hfc]
  rw [show ((pre.length : Nat) : Int) + 1 = ((pre.length + 1 : Nat) : Int) from
    by push_cast; ring]
  have hlen2 : (pre ++ '(' :: (args ++ ')' :: rest)).length =
      pre.length + 1 + args.length + 1 + rest.length := by
    simp
    omega
  rw [pyIndex_natCast, pyIndex_natCast, hlen2]
  rw [show min (pre.length + 1)
        (pre.length + 1 + args.length + 1 + rest.length) =
      pre.length + 1 from by omega]
  rw [show min (pre.length + 1 + args.length)
        (pre.length + 1 + args.length + 1 + rest.length) =
      pre.length + 1 + args.length from by omega]
  have hre2 : pre ++ '(' :: (args ++ ')' :: rest) =
      (pre ++ ['(']) ++ (args ++ ')' :: rest) := by simp
  rw [hre2]
  rw [show pre.length + 1 = (pre ++ ['(']).length from by simp]
  rw [List.drop_left]
  rw [show (pre ++ ['(']).length + args.length - (pre ++ ['(']).length =
      args.length from by omega]
  rw [List.take_left]

/-- C3 amended witness: parenthesis-free bounds `<<e=0:n>>` and argument
list `int *a`; the capture returns the argument list exactly. -/
theorem c3_amended_witness :
    capture_args (cs "<<e=0:n>>" ++ '(' :: (cs "int *a" ++ ')' :: cs "{x}")) =
      cs "int *a" :=
  c3_amended_scan_capture (cs "<<e=0:n>>") (cs "int *a") (cs "{x}")
    (by decide) (by decide) (by decide) (by decide)
